import Mathlib

/-!
Formal model of the QSM Japan core: the trade-cost builder
(`calculate_trade_costs` in `Japan/Scripts/spatial_processing.py`) and the
model inversion engine (`invert_model` in `Japan/Scripts/model_inversion.py`),
embedded shallowly over the real numbers.  Vectors of length `n` are
functions `Fin n → ℝ`, matrices are `Fin n → Fin n → ℝ`, and numpy
operations (`np.clip`, `np.mean`, `np.linalg.norm`, broadcasting, `**`)
are translated operation by operation.
-/

namespace QSM

noncomputable section

open Classical

/-- Numpy `np.clip(x, lo, hi)` on a scalar: `min(hi, max(lo, x))`. -/
def npClip (lo hi x : ℝ) : ℝ := min hi (max lo x)

/-- Numpy `np.mean` of a length-`n` vector: the sum divided by `n`. -/
def vmean {n : ℕ} (v : Fin n → ℝ) : ℝ := (∑ i, v i) / n

/-- Numpy `np.linalg.norm` of a vector: the Euclidean norm
`sqrt(sum of squares)`. -/
def npNorm {n : ℕ} (v : Fin n → ℝ) : ℝ := Real.sqrt (∑ i, v i ^ 2)

/-- `calculate_trade_costs` (spatial_processing.py, lines 178–194):
the distance matrix is scaled by `phi` (`distance_matrix_array *= phi`) and
then `T = np.exp(np.clip(distance_matrix_array, -700, 700))`, elementwise. -/
def calculate_trade_costs {n : ℕ} (D : Fin n → Fin n → ℝ) (phi : ℝ) :
    Fin n → Fin n → ℝ :=
  fun i j => Real.exp (npClip (-700) 700 (phi * D i j))

/-- A concrete 2×2 distance matrix with zero diagonal, used to instantiate
the trade-cost theorems: distances 10 km off the diagonal. -/
def Dnear : Fin 2 → Fin 2 → ℝ := ![![0, 10], ![10, 0]]

/-- A second concrete 2×2 distance matrix: distances 20 km off the
diagonal, entrywise at least `Dnear`. -/
def Dfar : Fin 2 → Fin 2 → ℝ := ![![0, 20], ![20, 0]]

lemma npClip_of_mem (lo hi x : ℝ) (h1 : lo ≤ x) (h2 : x ≤ hi) :
    npClip lo hi x = x := by
  unfold npClip
  rw [max_eq_right h1, min_eq_right h2]

lemma Dnear_eval : Dnear 0 1 = 10 := by
  unfold Dnear
  norm_num

lemma Dfar_eval : Dfar 0 1 = 20 := by
  unfold Dfar
  norm_num

/-- C4: `calculate_trade_costs` returns `T` with
`T[i][j] = exp(clip(phi * D[i][j], -700, 700))` elementwise; when `D` has a
zero diagonal, `T[i][i] = 1` for all `i`, and every entry of `T` is
(strictly) positive. -/
theorem calculate_trade_costs_spec {n : ℕ} (D : Fin n → Fin n → ℝ)
    (phi : ℝ) (hdiag : ∀ i, D i i = 0) :
    (∀ i j, calculate_trade_costs D phi i j
        = Real.exp (npClip (-700) 700 (phi * D i j))) ∧
    (∀ i, calculate_trade_costs D phi i i = 1) ∧
    (∀ i j, 0 < calculate_trade_costs D phi i j) := by
  refine ⟨fun i j => rfl, fun i => ?_, fun i j => Real.exp_pos _⟩
  unfold calculate_trade_costs
  rw [hdiag i, mul_zero, npClip_of_mem _ _ _ (by norm_num) (by norm_num),
    Real.exp_zero]

/-- Witness for C4 at the concrete input `Dnear`, `phi = 0.01`. -/
theorem calculate_trade_costs_spec_witness :
    (∀ i j, calculate_trade_costs Dnear 0.01 i j
        = Real.exp (npClip (-700) 700 (0.01 * Dnear i j))) ∧
    (∀ i, calculate_trade_costs Dnear 0.01 i i = 1) ∧
    (∀ i j, 0 < calculate_trade_costs Dnear 0.01 i j) :=
  calculate_trade_costs_spec Dnear 0.01 (by
    intro i
    fin_cases i <;> simp [Dnear])

/-- Counterexample to C3: the claim says `T[i][j]` is strictly decreasing in
`D[i][j]` for fixed `phi > 0`.  At `phi = 0.01` the off-diagonal distance of
`Dnear` (10 km) is smaller than that of `Dfar` (20 km), yet the produced
trade cost is strictly LARGER at the larger distance, refuting strict
decrease at this concrete input. -/
theorem calculate_trade_costs_decreasing_cex :
    Dnear 0 1 < Dfar 0 1 ∧
    calculate_trade_costs Dnear 0.01 0 1
      < calculate_trade_costs Dfar 0.01 0 1 := by
  constructor
  · rw [Dnear_eval, Dfar_eval]; norm_num
  · unfold calculate_trade_costs
    rw [Dnear_eval, Dfar_eval,
      npClip_of_mem _ _ _ (by norm_num) (by norm_num),
      npClip_of_mem _ _ _ (by norm_num) (by norm_num)]
    exact Real.exp_lt_exp.mpr (by norm_num)

/-- C3 (amended): for fixed `phi > 0` the trade-cost entry produced by
`calculate_trade_costs` is strictly INCREASING in the distance `D[i][j]`
(for scaled distances within the clip range `[-700, 700]`), since the code
computes `exp(phi * D[i][j])`, an increasing function of distance. -/
theorem calculate_trade_costs_strictMono {n : ℕ}
    (D D' : Fin n → Fin n → ℝ) (phi : ℝ) (i j : Fin n)
    (hphi : 0 < phi) (hlt : D i j < D' i j)
    (hlo : -700 ≤ phi * D i j) (hhi : phi * D' i j ≤ 700) :
    calculate_trade_costs D phi i j < calculate_trade_costs D' phi i j := by
  unfold calculate_trade_costs
  have hmul : phi * D i j < phi * D' i j :=
    mul_lt_mul_of_pos_left hlt hphi
  rw [npClip_of_mem _ _ _ hlo (le_of_lt (lt_of_lt_of_le hmul hhi)),
    npClip_of_mem _ _ _ (le_of_lt (lt_of_le_of_lt hlo hmul)) hhi]
  exact Real.exp_lt_exp.mpr hmul

/-- Witness for the amended C3 at distances 10 < 20, `phi = 0.01`. -/
theorem calculate_trade_costs_strictMono_witness :
    calculate_trade_costs Dnear 0.01 0 1
      < calculate_trade_costs Dfar 0.01 0 1 :=
  calculate_trade_costs_strictMono Dnear Dfar 0.01 0 1 (by norm_num)
    (by rw [Dnear_eval, Dfar_eval]; norm_num)
    (by rw [Dnear_eval]; norm_num)
    (by rw [Dfar_eval]; norm_num)

/-! ### The model inversion engine (`invert_model`, model_inversion.py) -/

/-- Elasticity of substitution, `sigma = 9` (line 34). -/
def sigma : ℤ := 9

/-- Convergence tolerance, `tol = 1e-6` (line 36). -/
def tol : ℝ := 1e-6

/-- Maximum number of iterations, `max_iter = 1000` (line 37). -/
def maxIter : ℕ := 1000

/-- Minimum learning rate, `min_alpha = 0.01` (line 38). -/
def minAlpha : ℝ := 0.01

/-- Initial learning rate, `initial_alpha = 0.1` (line 39). -/
def initialAlpha : ℝ := 0.1

/-- The lower clip bound `1e-10` used in every update (lines 95–104). -/
def clipLo : ℝ := 1e-10

/-- The upper clip bound `1e10` used in every update (lines 95–104). -/
def clipHi : ℝ := 1e10

/-- `term1 = np.clip(T ** (1 - sigma), 1e-10, 1e10)` (line 95); the
exponent `1 - sigma = -8` is an integer, so `**` is an integer power. -/
def term1 {n : ℕ} (T : Fin n → Fin n → ℝ) : Fin n → Fin n → ℝ :=
  fun i j => npClip clipLo clipHi (T i j ^ (1 - sigma))

/-- `term2 = np.clip((w * np.ones(N)) ** (sigma - 1), 1e-10, 1e10)`
(line 96), a vector indexed by the origin `i` (broadcast over columns by
`[:, None]` at line 99). -/
def term2 {n : ℕ} (w : Fin n → ℝ) : Fin n → ℝ :=
  fun i => npClip clipLo clipHi ((w i * 1) ^ (sigma - 1))

/-- `term3 = np.clip(np.ones(N)[:, None] * ((A / w) ** (sigma - 1)),
1e-10, 1e10)` (line 97): the row index comes from the column of ones, the
value depends only on the destination `j`. -/
def term3 {n : ℕ} (A w : Fin n → ℝ) : Fin n → Fin n → ℝ :=
  fun _i j => npClip clipLo clipHi (1 * (A j / w j) ^ (sigma - 1))

/-- `combined_terms = np.clip(term1 * term2[:, None] * term3, 1e-10, 1e10)`
(line 99). -/
def combined_terms {n : ℕ} (T : Fin n → Fin n → ℝ) (w A : Fin n → ℝ) :
    Fin n → Fin n → ℝ :=
  fun i j => npClip clipLo clipHi (term1 T i j * term2 w i * term3 A w i j)

/-- `u_new = np.clip((np.mean(combined_terms, axis=1)) ** (1 / (1 - sigma)),
1e-10, 1e10)` (line 100); `1 / (1 - sigma)` is the Python float `-0.125`,
so `**` is a real power. -/
def u_new_raw {n : ℕ} (T : Fin n → Fin n → ℝ) (w A : Fin n → ℝ) :
    Fin n → ℝ :=
  fun i => npClip clipLo clipHi
    (Real.rpow (vmean (fun j => combined_terms T w A i j))
      (1 / (1 - (sigma : ℝ))))

/-- The mean-1 renormalization `v / np.mean(v)` (lines 101 and 105). -/
def normalizeMean {n : ℕ} (v : Fin n → ℝ) : Fin n → ℝ :=
  fun i => v i / vmean v

/-- The complete utility update of one iteration (lines 95–101). -/
def u_update {n : ℕ} (T : Fin n → Fin n → ℝ) (w A : Fin n → ℝ) :
    Fin n → ℝ :=
  normalizeMean (u_new_raw T w A)

/-- `A_new = np.clip((L * w ** (2 * sigma - 1) * u ** (sigma - 1)) **
(1 / (sigma - 1)), 1e-10, 1e10)` (line 104); `1 / (sigma - 1)` is the
Python float `0.125`, so the outer `**` is a real power. -/
def A_new_raw {n : ℕ} (L w u : Fin n → ℝ) : Fin n → ℝ :=
  fun i => npClip clipLo clipHi
    (Real.rpow (L i * w i ^ (2 * sigma - 1) * u i ^ (sigma - 1))
      (1 / ((sigma : ℝ) - 1)))

/-- The complete amenity update of one iteration (lines 104–105). -/
def A_update {n : ℕ} (L w u : Fin n → ℝ) : Fin n → ℝ :=
  normalizeMean (A_new_raw L w u)

/-! ### Spec-side update formulas (for the refinement claim C1) -/

/-- Modelled from the spec words for comparison with the code:
`combined[i][j] = T[i][j]^(1-sigma) * w[i]^(sigma-1) * (A[j]/w[j])^(sigma-1)`,
each factor individually clipped to `[1e-10, 1e10]` and the product
re-clipped. -/
def spec_combined {n : ℕ} (T : Fin n → Fin n → ℝ) (w A : Fin n → ℝ) :
    Fin n → Fin n → ℝ :=
  fun i j => npClip clipLo clipHi
    (npClip clipLo clipHi (T i j ^ (1 - sigma)) *
      npClip clipLo clipHi (w i ^ (sigma - 1)) *
      npClip clipLo clipHi ((A j / w j) ^ (sigma - 1)))

/-- Modelled from the spec words for comparison with the code:
`u_new[i] = (mean_j combined[i][j])^(1/(1-sigma))`, clipped, then
renormalized to mean 1 across all `i`. -/
def spec_u_update {n : ℕ} (T : Fin n → Fin n → ℝ) (w A : Fin n → ℝ) :
    Fin n → ℝ :=
  normalizeMean (fun i => npClip clipLo clipHi
    (Real.rpow (vmean (fun j => spec_combined T w A i j))
      (1 / (1 - (sigma : ℝ)))))

/-- Modelled from the spec words for comparison with the code:
`A_new[i] = (L[i] * w[i]^(2*sigma-1) * u[i]^(sigma-1))^(1/(sigma-1))`,
clipped, then renormalized to mean 1. -/
def spec_A_update {n : ℕ} (L w u : Fin n → ℝ) : Fin n → ℝ :=
  normalizeMean (fun i => npClip clipLo clipHi
    (Real.rpow (L i * w i ^ (2 * sigma - 1) * u i ^ (sigma - 1))
      (1 / ((sigma : ℝ) - 1))))

/-- C1: with elasticity `sigma = 9`, the utility update of `invert_model`
computes exactly the spec's
`combined[i][j] = T[i][j]^(1-sigma) * w[i]^(sigma-1) * (A[j]/w[j])^(sigma-1)`
(each factor clipped to `[1e-10, 1e10]`, the product re-clipped), then
`u_new[i] = (mean_j combined[i][j])^(1/(1-sigma))` clipped and renormalized
to mean 1, and the amenity update computes exactly the spec's
`A_new[i] = (L[i] * w[i]^(2*sigma-1) * u[i]^(sigma-1))^(1/(sigma-1))`
clipped and renormalized to mean 1. -/
theorem invert_update_matches_spec {n : ℕ} (T : Fin n → Fin n → ℝ)
    (L w A u : Fin n → ℝ) :
    sigma = 9 ∧
    (∀ i j, combined_terms T w A i j = spec_combined T w A i j) ∧
    (∀ i, u_update T w A i = spec_u_update T w A i) ∧
    (∀ i, A_update L w u i = spec_A_update L w u i) := by
  have hcomb : ∀ i j, combined_terms T w A i j = spec_combined T w A i j := by
    intro i j
    unfold combined_terms spec_combined term1 term2 term3
    rw [mul_one (w i), one_mul ((A j / w j) ^ (sigma - 1))]
  refine ⟨rfl, hcomb, fun i => ?_, fun i => rfl⟩
  unfold u_update spec_u_update normalizeMean u_new_raw
  simp only [hcomb]

/-! ### The per-year iteration loop -/

/-- The mutable state of the `while` loop of `invert_model`
(lines 72–132).  `trace` is a ghost field recording, for every completed
iteration, the triple `(diff, A_new, u_new)` the iteration produced; it
influences nothing and exists so that properties quantifying over all
residuals seen so far can be stated. -/
structure IterState (n : ℕ) where
  A : Fin n → ℝ
  u : Fin n → ℝ
  diff : ℝ
  iterCount : ℕ
  noImp : ℕ
  best : Option (ℝ × (Fin n → ℝ) × (Fin n → ℝ))
  trace : List (ℝ × (Fin n → ℝ) × (Fin n → ℝ))

/-- The adaptive learning rate
`alpha_update = max(min_alpha, initial_alpha / np.sqrt(1 + iter_count))`
(line 88). -/
def alphaAt (k : ℕ) : ℝ :=
  max minAlpha (initialAlpha / Real.sqrt (1 + (k : ℝ)))

/-- The residual of one iteration,
`diff = np.linalg.norm(A - A_new) + np.linalg.norm(u - u_new)` (line 108),
where `A_new` is computed from the current `u` and `u_new` from the
current `A`. -/
def stepDiff {n : ℕ} (L w : Fin n → ℝ) (T : Fin n → Fin n → ℝ)
    (s : IterState n) : ℝ :=
  npNorm (fun i => s.A i - A_update L w s.u i)
    + npNorm (fun i => s.u i - u_update T w s.A i)

/-- The improvement test `diff < best_diff` (line 111); a `best` of `none`
models the initial `best_diff = inf`, against which any residual counts as
an improvement. -/
def stepImproved {n : ℕ} (L w : Fin n → ℝ) (T : Fin n → Fin n → ℝ)
    (s : IterState n) : Prop :=
  ∀ b ∈ s.best, stepDiff L w T s < b.1

open Classical in
/-- The body of the `try` block of one iteration (lines 93–126): compute
`u_new`, `A_new` and `diff`, record the best solution so far and reset or
bump the no-improvement counter, and blend the new iterates into `A`, `u`
with the adaptive rate. -/
def stepBody {n : ℕ} (L w : Fin n → ℝ) (T : Fin n → Fin n → ℝ)
    (s : IterState n) : IterState n :=
  { A := fun i => alphaAt s.iterCount * A_update L w s.u i
      + (1 - alphaAt s.iterCount) * s.A i
    u := fun i => alphaAt s.iterCount * u_update T w s.A i
      + (1 - alphaAt s.iterCount) * s.u i
    diff := stepDiff L w T s
    iterCount := s.iterCount
    noImp := if stepImproved L w T s then 0 else s.noImp + 1
    best := if stepImproved L w T s then
        some (stepDiff L w T s, A_update L w s.u, u_update T w s.A)
      else s.best
    trace := s.trace
      ++ [(stepDiff L w T s, A_update L w s.u, u_update T w s.A)] }

open Classical in
lemma stepBody_best {n : ℕ} (L w : Fin n → ℝ) (T : Fin n → Fin n → ℝ)
    (s : IterState n) :
    (stepBody L w T s).best = if stepImproved L w T s then
        some (stepDiff L w T s, A_update L w s.u, u_update T w s.A)
      else s.best :=
  rfl

lemma stepBody_trace {n : ℕ} (L w : Fin n → ℝ) (T : Fin n → Fin n → ℝ)
    (s : IterState n) :
    (stepBody L w T s).trace = s.trace
      ++ [(stepDiff L w T s, A_update L w s.u, u_update T w s.A)] :=
  rfl

open Classical in
/-- The `while diff > tol and iter_count < max_iter` loop (line 86), with
fuel equal to the number of iterations left before `max_iter`.  The step
function parameter returns `none` when the iteration body raises: the
`except` branch (lines 128–130) breaks out of the loop leaving the state
untouched.  A completed iteration either breaks on the no-improvement test
`no_improvement_count > 50` (lines 124–126) without incrementing
`iter_count`, or continues with `iter_count + 1` (line 132). -/
def loopAux {n : ℕ} (step : IterState n → Option (IterState n)) :
    ℕ → IterState n → IterState n
  | 0, s => s
  | Nat.succ fuel, s =>
    if s.diff ≤ tol then s
    else
      match step s with
      | none => s
      | some s' =>
        if 50 < s'.noImp then s'
        else loopAux step fuel { s' with iterCount := s'.iterCount + 1 }

/-- The initial per-year state (lines 72–84): `A = u = ones(N)`,
`diff = 1`, `iter_count = 0`, `no_improvement_count = 0`, and no best
solution recorded yet (`best_diff = inf`, `best_A = best_u = None`). -/
def initState (n : ℕ) : IterState n :=
  { A := fun _ => 1
    u := fun _ => 1
    diff := 1
    iterCount := 0
    noImp := 0
    best := none
    trace := [] }

/-- The real iteration body never raises in the real-number model. -/
def okStep {n : ℕ} (L w : Fin n → ℝ) (T : Fin n → Fin n → ℝ) :
    IterState n → Option (IterState n) :=
  fun s => some (stepBody L w T s)

/-- One year's loop of `invert_model` on already-normalized data. -/
def runLoop {n : ℕ} (L w : Fin n → ℝ) (T : Fin n → Fin n → ℝ) :
    IterState n :=
  loopAux (okStep L w T) maxIter (initState n)

/-- What `invert_model` keeps of one year once its loop has finished: the
columns `A_<year>` and `u_<year>` and the year's convergence record
(lines 134–156). -/
structure YearResult (n : ℕ) where
  A : Fin n → ℝ
  u : Fin n → ℝ
  iterations : ℕ
  finalDiff : ℝ

/-- Lines 134–142: if a best solution was recorded it (and its residual)
replaces the final iterate; the convergence record stores `iter_count` and
the possibly-replaced `diff`. -/
def finalize {n : ℕ} (s : IterState n) : YearResult n :=
  match s.best with
  | some b =>
    { A := b.2.1, u := b.2.2, iterations := s.iterCount, finalDiff := b.1 }
  | none =>
    { A := s.A, u := s.u, iterations := s.iterCount, finalDiff := s.diff }

/-- One year of `invert_model` on normalized inputs. -/
def invert_model_year {n : ℕ} (L w : Fin n → ℝ) (T : Fin n → Fin n → ℝ) :
    YearResult n :=
  finalize (runLoop L w T)

/-- One year's loop and finalization with an arbitrary (possibly raising)
step function. -/
def runYearWith {n : ℕ} (step : IterState n → Option (IterState n)) :
    YearResult n :=
  finalize (loopAux step maxIter (initState n))

/-- The `for year in years` loop of `invert_model` (lines 44–156): every
year runs its own loop from the all-ones initial state with its own step
function, and contributes its result independently of the other years. -/
def invert_model_years {n : ℕ} (years : List ℕ)
    (stepOf : ℕ → IterState n → Option (IterState n)) :
    List (ℕ × YearResult n) :=
  years.map (fun y => (y, runYearWith (stepOf y)))

/-- Unfolding of one loop round (definitional). -/
lemma loopAux_succ {n : ℕ} (step : IterState n → Option (IterState n))
    (fuel : ℕ) (s : IterState n) :
    loopAux step (fuel + 1) s =
      if s.diff ≤ tol then s
      else
        match step s with
        | none => s
        | some s' =>
          if 50 < s'.noImp then s'
          else loopAux step fuel { s' with iterCount := s'.iterCount + 1 } :=
  rfl

/-! ### Numpy broadcasting shapes (for the shape-mismatch claim C2) -/

/-- Numpy broadcasting of two dimension sizes: compatible when equal or
when one of them is 1, in which case the broadcast size is the other. -/
def broadcastDim (a b : ℕ) : Option ℕ :=
  if a = b then some a
  else if a = 1 then some b
  else if b = 1 then some a
  else none

/-- Numpy broadcasting of two 2-d shapes, dimension by dimension. -/
def broadcastShape (s t : ℕ × ℕ) : Option (ℕ × ℕ) :=
  match broadcastDim s.1 t.1, broadcastDim s.2 t.2 with
  | some a, some b => some (a, b)
  | _, _ => none

/-- The shape computation of
`combined_terms = term1 * term2[:, None] * term3` (line 99) when `T` is
`m × m` while `L`, `w`, `A`, `u` have length `n`: `term1` has shape
`(m, m)`, `term2[:, None]` has shape `(n, 1)` and `term3` has shape
`(n, n)`.  Numpy raises a broadcasting `ValueError` — inside the
iteration's `try` block — exactly when this computation returns `none`. -/
def combinedShape (n m : ℕ) : Option (ℕ × ℕ) :=
  (broadcastShape (m, m) (n, 1)).bind (fun s => broadcastShape s (n, n))

lemma runYearWith_of_first_raise {n : ℕ}
    (step : IterState n → Option (IterState n))
    (hstep : step (initState n) = none) :
    runYearWith step = ⟨fun _ => 1, fun _ => 1, 0, 1⟩ := by
  unfold runYearWith
  have hmax : maxIter = 999 + 1 := rfl
  rw [hmax, loopAux_succ]
  rw [if_neg (by unfold initState tol; norm_num)]
  rw [hstep]
  rfl

/-- Counterexample to C2: with `N = 2` locations and a `3 × 3` trade-cost
matrix there is no ShapeMismatch-style failure before the loop: the shape
error arises only when the first iteration's `combined_terms` broadcast is
attempted (`combinedShape 2 3 = none`), inside the `try` block, and the
`except` handler swallows it, so the year finishes normally with the
all-ones initial vectors, zero recorded iterations and residual 1 —
refuting both the "before any iteration" and the "fatal" part of the
claim. -/
theorem shape_mismatch_cex :
    combinedShape 2 3 = none ∧
    runYearWith (n := 2) (fun _ => none) = ⟨fun _ => 1, fun _ => 1, 0, 1⟩ := by
  refine ⟨rfl, runYearWith_of_first_raise _ rfl⟩

/-- C2 (amended): `invert_model` performs no shape validation.  For every
`L` of length `N > 1` and square trade-cost matrix of size `M × M` with
`M > 1` and `M ≠ N`, the first iteration's broadcast of `combined_terms`
is ill-formed (`combinedShape N M = none`, while the matched-shape
broadcast succeeds), so numpy raises inside the first iteration's `try`
block; any step whose first iteration raises leaves the loop immediately
and the year returns the all-ones initial vectors with a convergence
record of 0 iterations and residual 1 — the failure is discovered
mid-loop and is not fatal. -/
theorem shape_mismatch_caught {n m : ℕ} (hn : 1 < n) (hm : 1 < m)
    (hne : n ≠ m) (step : IterState n → Option (IterState n))
    (hstep : step (initState n) = none) :
    combinedShape n m = none ∧
    combinedShape n n = some (n, n) ∧
    runYearWith step = ⟨fun _ => 1, fun _ => 1, 0, 1⟩ := by
  refine ⟨?_, ?_, runYearWith_of_first_raise step hstep⟩
  · have h1 : m ≠ 1 := by omega
    have h2 : n ≠ 1 := by omega
    have h3 : m ≠ n := fun h => hne h.symm
    simp [combinedShape, broadcastShape, broadcastDim, h1, h2, h3]
  · have h2 : n ≠ 1 := by omega
    simp [combinedShape, broadcastShape, broadcastDim, h2]

/-- Witness for the amended C2 with `N = 2`, `M = 3` and a first iteration
that raises. -/
theorem shape_mismatch_caught_witness :
    combinedShape 2 3 = none ∧
    combinedShape 2 2 = some (2, 2) ∧
    runYearWith (n := 2) (fun _ => none) = ⟨fun _ => 1, fun _ => 1, 0, 1⟩ :=
  shape_mismatch_caught (by norm_num) (by norm_num) (by norm_num)
    (fun _ => none) rfl

/-- C10: if (for some year) the first executed iteration of the loop
raises — so the loop breaks before any best iterate is recorded — then
that year's columns are the all-ones initial vectors, its convergence
record has `iterations = 0` and `final_diff = 1`, and the remaining years
of the `for year in years` loop are still processed, each with its own
result. -/
theorem exception_year_fallback {n : ℕ} (years : List ℕ)
    (stepOf : ℕ → IterState n → Option (IterState n)) (y : ℕ)
    (hy : stepOf y (initState n) = none) :
    runYearWith (stepOf y) = ⟨fun _ => 1, fun _ => 1, 0, 1⟩ ∧
    (y ∈ years →
      (y, (⟨fun _ => 1, fun _ => 1, 0, 1⟩ : YearResult n))
        ∈ invert_model_years years stepOf) ∧
    (invert_model_years years stepOf).map Prod.fst = years := by
  have hone := runYearWith_of_first_raise (stepOf y) hy
  refine ⟨hone, fun hmem => ?_, ?_⟩
  · unfold invert_model_years
    rw [← hone]
    exact List.mem_map_of_mem _ hmem
  · unfold invert_model_years
    rw [List.map_map]
    exact List.map_id _

lemma finalize_iterations {n : ℕ} (s : IterState n) :
    (finalize s).iterations = s.iterCount := by
  unfold finalize
  rcases s.best with _ | b <;> rfl

lemma loopAux_okStep_succ {n : ℕ} (L w : Fin n → ℝ)
    (T : Fin n → Fin n → ℝ) (fuel : ℕ) (s : IterState n)
    (hd : ¬ s.diff ≤ tol) :
    loopAux (okStep L w T) (fuel + 1) s =
      if 50 < (stepBody L w T s).noImp then stepBody L w T s
      else loopAux (okStep L w T) fuel
        { stepBody L w T s with
            iterCount := (stepBody L w T s).iterCount + 1 } := by
  rw [loopAux_succ, if_neg hd]
  rfl

lemma loopAux_okStep_charn {n : ℕ} (L w : Fin n → ℝ)
    (T : Fin n → Fin n → ℝ) :
    ∀ (fuel : ℕ) (s : IterState n),
      (loopAux (okStep L w T) fuel s).iterCount ≤ s.iterCount + fuel ∧
      ((loopAux (okStep L w T) fuel s).diff ≤ tol ∨
        (loopAux (okStep L w T) fuel s).iterCount = s.iterCount + fuel ∨
        50 < (loopAux (okStep L w T) fuel s).noImp) := by
  intro fuel
  induction fuel with
  | zero => exact fun s => ⟨Nat.le_refl _, Or.inr (Or.inl rfl)⟩
  | succ fuel ih =>
    intro s
    by_cases hd : s.diff ≤ tol
    · rw [loopAux_succ, if_pos hd]
      exact ⟨Nat.le_add_right _ _, Or.inl hd⟩
    · rw [loopAux_okStep_succ L w T fuel s hd]
      by_cases hni : 50 < (stepBody L w T s).noImp
      · rw [if_pos hni]
        exact ⟨Nat.le_add_right _ _, Or.inr (Or.inr hni)⟩
      · rw [if_neg hni]
        have ihs := ih { stepBody L w T s with
            iterCount := (stepBody L w T s).iterCount + 1 }
        have hst : ({ stepBody L w T s with
            iterCount := (stepBody L w T s).iterCount + 1 } :
              IterState n).iterCount = s.iterCount + 1 := rfl
        refine ⟨?_, ?_⟩
        · have h1 := ihs.1
          omega
        · rcases ihs.2 with h | h | h
          · exact Or.inl h
          · exact Or.inr (Or.inl (by omega))
          · exact Or.inr (Or.inr h)

/-- C8: each year's loop always terminates: with `tol = 1e-6` and
`max_iter = 1000`, the step body never raises in the real-number model,
the recorded iteration count never exceeds `max_iter`, and at the final
state either `diff ≤ tol` (convergence), or `iter_count = max_iter` was
reached (non-convergence: a result is still produced, no exception), or
the no-improvement counter exceeded 50 (early stop); the convergence
record's iteration count is the loop's final `iter_count`. -/
theorem invert_model_terminates {n : ℕ} (L w : Fin n → ℝ)
    (T : Fin n → Fin n → ℝ) :
    tol = 1e-6 ∧ maxIter = 1000 ∧
    (∀ s, okStep L w T s = some (stepBody L w T s)) ∧
    (runLoop L w T).iterCount ≤ maxIter ∧
    ((runLoop L w T).diff ≤ tol ∨ (runLoop L w T).iterCount = maxIter ∨
      50 < (runLoop L w T).noImp) ∧
    (invert_model_year L w T).iterations = (runLoop L w T).iterCount := by
  have h := loopAux_okStep_charn L w T maxIter (initState n)
  have hzero : (initState n).iterCount = 0 := rfl
  rw [hzero, Nat.zero_add] at h
  exact ⟨rfl, rfl, fun s => rfl, h.1, h.2,
    finalize_iterations (runLoop L w T)⟩

/-! ### Positivity and normalization invariants (claims C6 and C7) -/

lemma npClip_le_hi (lo hi x : ℝ) : npClip lo hi x ≤ hi :=
  min_le_left _ _

lemma lo_le_npClip (lo hi x : ℝ) (h : lo ≤ hi) : lo ≤ npClip lo hi x :=
  le_min h (le_max_left _ _)

lemma clipLo_pos : (0 : ℝ) < clipLo := by unfold clipLo; norm_num

lemma clipLo_le_clipHi : clipLo ≤ clipHi := by
  unfold clipLo clipHi; norm_num

lemma le_vmean {n : ℕ} (v : Fin n → ℝ) (lo : ℝ) (hn : 0 < n)
    (h : ∀ i, lo ≤ v i) : lo ≤ vmean v := by
  have hcast : (0 : ℝ) < n := Nat.cast_pos.mpr hn
  unfold vmean
  rw [le_div_iff hcast]
  calc lo * n = (n : ℝ) • lo := by rw [smul_eq_mul]; ring
    _ = ∑ _i : Fin n, lo := by
        rw [Finset.sum_const, Finset.card_univ, Fintype.card_fin, nsmul_eq_smul_cast ℝ]
    _ ≤ ∑ i, v i := Finset.sum_le_sum (fun i _ => h i)

lemma vmean_ones {n : ℕ} (hn : 0 < n) :
    vmean (fun _ : Fin n => (1 : ℝ)) = 1 := by
  unfold vmean
  rw [Finset.sum_const, Finset.card_univ, Fintype.card_fin, nsmul_eq_mul,
    mul_one, div_self (Nat.cast_ne_zero.mpr (Nat.not_eq_zero_of_lt hn))]

lemma normalizeMean_mean {n : ℕ} (v : Fin n → ℝ) (h : vmean v ≠ 0) :
    vmean (normalizeMean v) = 1 := by
  unfold normalizeMean
  have hv : vmean (fun i => v i / vmean v) = vmean v / vmean v := by
    unfold vmean
    rw [← Finset.sum_div]
    ring
  rw [hv, div_self h]

/-- A clipped-then-renormalized vector: strictly positive entries bounded
by `1e10 / 1e-10 = 1e20`, with mean exactly 1. -/
lemma normalizeMean_good {n : ℕ} (v : Fin n → ℝ) (hn : 0 < n)
    (hmem : ∀ i, clipLo ≤ v i ∧ v i ≤ clipHi) :
    (∀ i, 0 < normalizeMean v i ∧ normalizeMean v i ≤ 1e20) ∧
    vmean (normalizeMean v) = 1 := by
  have hmean_lo : clipLo ≤ vmean v := le_vmean v clipLo hn (fun i => (hmem i).1)
  have hmean_pos : 0 < vmean v := lt_of_lt_of_le clipLo_pos hmean_lo
  refine ⟨fun i => ⟨?_, ?_⟩, normalizeMean_mean v (ne_of_gt hmean_pos)⟩
  · exact div_pos (lt_of_lt_of_le clipLo_pos (hmem i).1) hmean_pos
  · have hle : v i / vmean v ≤ clipHi / clipLo :=
      div_le_div (le_trans (le_of_lt clipLo_pos) clipLo_le_clipHi)
        (hmem i).2 clipLo_pos hmean_lo
    have hval : clipHi / clipLo = 1e20 := by unfold clipHi clipLo; norm_num
    exact le_trans hle (le_of_eq hval)

lemma A_update_good {n : ℕ} (L w u : Fin n → ℝ) (hn : 0 < n) :
    (∀ i, 0 < A_update L w u i ∧ A_update L w u i ≤ 1e20) ∧
    vmean (A_update L w u) = 1 :=
  normalizeMean_good _ hn (fun i =>
    ⟨lo_le_npClip _ _ _ clipLo_le_clipHi, npClip_le_hi _ _ _⟩)

lemma u_update_good {n : ℕ} (T : Fin n → Fin n → ℝ) (w A : Fin n → ℝ)
    (hn : 0 < n) :
    (∀ i, 0 < u_update T w A i ∧ u_update T w A i ≤ 1e20) ∧
    vmean (u_update T w A) = 1 :=
  normalizeMean_good _ hn (fun i =>
    ⟨lo_le_npClip _ _ _ clipLo_le_clipHi, npClip_le_hi _ _ _⟩)

/-- The solution invariant of one year's loop: if no best pair has been
recorded the iterates are still the all-ones initial vectors, and every
recorded best pair consists of two clipped-and-renormalized updates. -/
def SolInv {n : ℕ} (s : IterState n) : Prop :=
  (s.best = none → s.A = (fun _ => 1) ∧ s.u = (fun _ => 1)) ∧
  ∀ b ∈ s.best,
    ((∀ i, 0 < b.2.1 i ∧ b.2.1 i ≤ 1e20) ∧ vmean b.2.1 = 1) ∧
    ((∀ i, 0 < b.2.2 i ∧ b.2.2 i ≤ 1e20) ∧ vmean b.2.2 = 1)

lemma stepBody_best_ne_none {n : ℕ} (L w : Fin n → ℝ)
    (T : Fin n → Fin n → ℝ) (s : IterState n) :
    (stepBody L w T s).best ≠ none := by
  intro hnone
  rw [stepBody_best] at hnone
  by_cases himp : stepImproved L w T s
  · rw [if_pos himp] at hnone
    exact Option.some_ne_none _ hnone
  · rw [if_neg himp] at hnone
    exact himp (fun b hb => by rw [hnone] at hb; cases hb)

lemma stepBody_solInv {n : ℕ} (L w : Fin n → ℝ) (T : Fin n → Fin n → ℝ)
    (hn : 0 < n) (s : IterState n) (hs : SolInv s) :
    SolInv (stepBody L w T s) := by
  refine ⟨fun hnone => absurd hnone (stepBody_best_ne_none L w T s), ?_⟩
  intro b hb
  rw [stepBody_best] at hb
  by_cases himp : stepImproved L w T s
  · rw [if_pos himp, Option.mem_def, Option.some_inj] at hb
    subst hb
    exact ⟨A_update_good L w s.u hn, u_update_good T w s.A hn⟩
  · rw [if_neg himp] at hb
    exact hs.2 b hb

lemma loopAux_okStep_invariant {n : ℕ} (L w : Fin n → ℝ)
    (T : Fin n → Fin n → ℝ) (P : IterState n → Prop)
    (hstep : ∀ s, P s → P (stepBody L w T s))
    (hbump : ∀ s, P s → P { s with iterCount := s.iterCount + 1 }) :
    ∀ (fuel : ℕ) (s : IterState n), P s → P (loopAux (okStep L w T) fuel s) := by
  intro fuel
  induction fuel with
  | zero => exact fun s h => h
  | succ fuel ih =>
    intro s h
    by_cases hd : s.diff ≤ tol
    · rw [loopAux_succ, if_pos hd]
      exact h
    · rw [loopAux_okStep_succ L w T fuel s hd]
      by_cases hni : 50 < (stepBody L w T s).noImp
      · rw [if_pos hni]
        exact hstep s h
      · rw [if_neg hni]
        exact ih _ (hbump _ (hstep s h))

lemma runLoop_solInv {n : ℕ} (L w : Fin n → ℝ) (T : Fin n → Fin n → ℝ)
    (hn : 0 < n) : SolInv (runLoop L w T) := by
  refine loopAux_okStep_invariant L w T SolInv
    (stepBody_solInv L w T hn) (fun s h => ?_) maxIter (initState n) ?_
  · exact ⟨h.1, h.2⟩
  · exact ⟨fun _ => ⟨rfl, rfl⟩, fun b hb => by cases hb⟩

lemma finalize_of_best_none {n : ℕ} (s : IterState n) (h : s.best = none) :
    finalize s = ⟨s.A, s.u, s.iterCount, s.diff⟩ := by
  unfold finalize
  rw [h]

lemma finalize_of_best_some {n : ℕ} (s : IterState n)
    (b : ℝ × (Fin n → ℝ) × (Fin n → ℝ)) (h : s.best = some b) :
    finalize s = ⟨b.2.1, b.2.2, s.iterCount, b.1⟩ := by
  unfold finalize
  rw [h]

/-- C7: every entry of the returned amenity and utility vectors is
strictly positive, and bounded by `1e20` (so in particular finite): the
clip bounds `[1e-10, 1e10]` force every recorded update to be strictly
positive, and when nothing was recorded the all-ones initial vectors are
returned.  This holds for every real input `L`, `w`, `T` — in particular
for inputs containing zeros, and for repaired (formerly NaN) entries. -/
theorem output_positive {n : ℕ} (L w : Fin n → ℝ)
    (T : Fin n → Fin n → ℝ) (i : Fin n) :
    (0 < (invert_model_year L w T).A i ∧
      (invert_model_year L w T).A i ≤ 1e20) ∧
    (0 < (invert_model_year L w T).u i ∧
      (invert_model_year L w T).u i ≤ 1e20) := by
  have hn : 0 < n := i.pos
  have hinv := runLoop_solInv L w T hn
  unfold invert_model_year
  rcases hmem : (runLoop L w T).best with _ | b
  · obtain ⟨hA, hu⟩ := hinv.1 hmem
    rw [finalize_of_best_none _ hmem]
    refine ⟨?_, ?_⟩
    · rw [hA]
      norm_num
    · rw [hu]
      norm_num
  · have hgood := hinv.2 b (by rw [hmem]; rfl)
    rw [finalize_of_best_some _ b hmem]
    exact ⟨hgood.1.1 i, hgood.2.1 i⟩

/-- C6: the returned amenity vector `A` and utility vector `u` of a year
each have mean exactly 1: when a best pair was recorded it was
renormalized to mean 1 before being recorded, and otherwise the all-ones
initial vectors (mean 1) are returned. -/
theorem output_mean_one {n : ℕ} (L w : Fin n → ℝ)
    (T : Fin n → Fin n → ℝ) (hn : 0 < n) :
    vmean (invert_model_year L w T).A = 1 ∧
    vmean (invert_model_year L w T).u = 1 := by
  have hinv := runLoop_solInv L w T hn
  unfold invert_model_year
  rcases hmem : (runLoop L w T).best with _ | b
  · obtain ⟨hA, hu⟩ := hinv.1 hmem
    rw [finalize_of_best_none _ hmem]
    constructor
    · rw [show (⟨(runLoop L w T).A, (runLoop L w T).u,
        (runLoop L w T).iterCount, (runLoop L w T).diff⟩ :
          YearResult n).A = (runLoop L w T).A from rfl, hA]
      exact vmean_ones hn
    · rw [show (⟨(runLoop L w T).A, (runLoop L w T).u,
        (runLoop L w T).iterCount, (runLoop L w T).diff⟩ :
          YearResult n).u = (runLoop L w T).u from rfl, hu]
      exact vmean_ones hn
  · have hgood := hinv.2 b (by rw [hmem]; rfl)
    rw [finalize_of_best_some _ b hmem]
    exact ⟨hgood.1.2, hgood.2.2⟩

/-- Witness for C6 at a concrete single-location input. -/
theorem output_mean_one_witness :
    vmean (invert_model_year (fun _ : Fin 1 => 1) (fun _ => 1)
      (fun _ _ => 1)).A = 1 ∧
    vmean (invert_model_year (fun _ : Fin 1 => 1) (fun _ => 1)
      (fun _ _ => 1)).u = 1 :=
  output_mean_one (fun _ => 1) (fun _ => 1) (fun _ _ => 1) (by norm_num)

/-! ### Best-iterate tracking (claim C5) -/

lemma npNorm_eucl {n : ℕ} (v : Fin n → ℝ) :
    npNorm v = ‖(WithLp.equiv 2 (∀ _ : Fin n, ℝ)).symm v‖ := by
  rw [EuclideanSpace.norm_eq]
  unfold npNorm
  congr 1
  refine Finset.sum_congr rfl (fun i _ => ?_)
  rw [WithLp.equiv_symm_pi_apply, Real.norm_eq_abs, sq_abs]

/-- The best-so-far pair is one of the completed iterations' recorded
triples and has the smallest residual among them; before the first
completed iteration both `best` and the trace are empty. -/
def BestIsArgmin {n : ℕ} (s : IterState n) : Prop :=
  (s.best = none → s.trace = []) ∧
  ∀ b ∈ s.best, b ∈ s.trace ∧ ∀ t ∈ s.trace, b.1 ≤ t.1

lemma stepBody_best_mono {n : ℕ} (L w : Fin n → ℝ)
    (T : Fin n → Fin n → ℝ) (s : IterState n) :
    ∀ b' ∈ (stepBody L w T s).best, ∀ b ∈ s.best, b'.1 ≤ b.1 := by
  intro b' hb' b hb
  rw [stepBody_best] at hb'
  by_cases himp : stepImproved L w T s
  · rw [if_pos himp, Option.mem_def, Option.some_inj] at hb'
    subst hb'
    exact le_of_lt (himp b hb)
  · rw [if_neg himp] at hb'
    rw [Option.mem_def] at hb' hb
    rw [hb] at hb'
    rw [Option.some_inj] at hb'
    subst hb'
    exact le_refl _

lemma stepBody_bestIsArgmin {n : ℕ} (L w : Fin n → ℝ)
    (T : Fin n → Fin n → ℝ) (s : IterState n) (hs : BestIsArgmin s) :
    BestIsArgmin (stepBody L w T s) := by
  obtain ⟨hemp, hmin⟩ := hs
  refine ⟨fun hnone => absurd hnone (stepBody_best_ne_none L w T s), ?_⟩
  intro b hb
  rw [stepBody_best] at hb
  rw [stepBody_trace]
  by_cases himp : stepImproved L w T s
  · rw [if_pos himp, Option.mem_def, Option.some_inj] at hb
    subst hb
    refine ⟨List.mem_append_right _ (List.mem_singleton_self _), ?_⟩
    intro t ht
    rcases List.mem_append.mp ht with ht | ht
    · rcases hbest : s.best with _ | b0
      · rw [hemp hbest] at ht
        cases ht
      · have hb0 : b0 ∈ s.best := by rw [hbest]; rfl
        exact le_trans (le_of_lt (himp b0 hb0)) ((hmin b0 hb0).2 t ht)
    · rw [List.mem_singleton] at ht
      subst ht
      exact le_refl _
  · rw [if_neg himp] at hb
    have hb0 := hmin b hb
    refine ⟨List.mem_append_left _ hb0.1, ?_⟩
    intro t ht
    rcases List.mem_append.mp ht with ht | ht
    · exact hb0.2 t ht
    · rw [List.mem_singleton] at ht
      subst ht
      by_contra hlt
      push_neg at hlt
      refine himp (fun b1 hb1 => ?_)
      rw [Option.mem_def] at hb hb1
      rw [hb, Option.some_inj] at hb1
      subst hb1
      exact hlt

/-- C5: within one year's run of `invert_model`, (i) `np.linalg.norm` is
the Euclidean norm and the recorded residual of each iteration is
`diff = ||A - A_new||_2 + ||u - u_new||_2`; (ii) the recorded best
residual never increases from one iteration to the next; (iii) the best
pair kept at the end of the loop is one of the recorded `(A_new, u_new)`
pairs and its residual is the smallest residual seen across all
iterations; (iv) it is exactly that pair (with its residual) that is
written to the year's output, not necessarily the final iterate. -/
theorem best_iterate_tracking {n : ℕ} (L w : Fin n → ℝ)
    (T : Fin n → Fin n → ℝ) :
    (∀ v : Fin n → ℝ, npNorm v = ‖(WithLp.equiv 2 (∀ _ : Fin n, ℝ)).symm v‖) ∧
    (∀ s : IterState n, (stepBody L w T s).diff
        = npNorm (fun i => s.A i - A_update L w s.u i)
          + npNorm (fun i => s.u i - u_update T w s.A i)) ∧
    (∀ s : IterState n, ∀ b' ∈ (stepBody L w T s).best, ∀ b ∈ s.best,
        b'.1 ≤ b.1) ∧
    (∀ b ∈ (runLoop L w T).best, b ∈ (runLoop L w T).trace ∧
        ∀ t ∈ (runLoop L w T).trace, b.1 ≤ t.1) ∧
    (∀ b ∈ (runLoop L w T).best,
        (invert_model_year L w T).A = b.2.1 ∧
        (invert_model_year L w T).u = b.2.2 ∧
        (invert_model_year L w T).finalDiff = b.1) := by
  have hargmin : BestIsArgmin (runLoop L w T) := by
    refine loopAux_okStep_invariant L w T BestIsArgmin
      (fun s h => stepBody_bestIsArgmin L w T s h) (fun s h => ?_)
      maxIter (initState n) ⟨fun _ => rfl, fun b hb => by cases hb⟩
    exact ⟨h.1, h.2⟩
  refine ⟨npNorm_eucl, fun s => rfl, stepBody_best_mono L w T,
    hargmin.2, ?_⟩
  intro b hb
  rw [Option.mem_def] at hb
  unfold invert_model_year
  rw [finalize_of_best_some _ b hb]
  exact ⟨rfl, rfl, rfl⟩

/-! ### Missing-value repair (claim C9) -/

/-- A floating-point value as the preprocessing of `invert_model` sees it:
NaN, one of the two infinities, or a finite real. -/
inductive FVal where
  | nan : FVal
  | pinf : FVal
  | ninf : FVal
  | fin : ℝ → FVal

/-- `np.isnan` on one value. -/
def FVal.isnan : FVal → Bool
  | nan => true
  | _ => false

/-- `np.isfinite` on one value. -/
def FVal.isfinite : FVal → Bool
  | fin _ => true
  | _ => false

/-- The finite payload of a value, if any. -/
def FVal.finPart : FVal → Option ℝ
  | fin x => some x
  | _ => none

/-- IEEE-754 addition on the values `np.nanmean`'s sum can meet: NaN is
absorbing, opposite infinities give NaN, an infinity absorbs anything
finite. -/
def FVal.add : FVal → FVal → FVal
  | nan, _ => nan
  | _, nan => nan
  | pinf, ninf => nan
  | ninf, pinf => nan
  | pinf, _ => pinf
  | _, pinf => pinf
  | ninf, _ => ninf
  | _, ninf => ninf
  | fin x, fin y => fin (x + y)

/-- IEEE-754 division of a value by a (positive) integer count. -/
def FVal.divCount : FVal → ℕ → FVal
  | nan, _ => nan
  | pinf, _ => pinf
  | ninf, _ => ninf
  | fin x, k => fin (x / k)

/-- `np.isnan(v).sum()` (lines 52–53): the number of NaN entries. -/
def countNan (L : List FVal) : ℕ :=
  (L.filter (fun v => v.isnan)).length

/-- `np.nanmean` (lines 60–61): the mean over the non-NaN entries
(infinities are NOT excluded); NaN for an empty or all-NaN vector. -/
def nanmean (L : List FVal) : FVal :=
  if (L.filter (fun v => !v.isnan)).length = 0 then FVal.nan
  else ((L.filter (fun v => !v.isnan)).foldl FVal.add (FVal.fin 0)).divCount
    (L.filter (fun v => !v.isnan)).length

/-- The largest double, `np.finfo(float64).max`: what `np.nan_to_num`
substitutes for `+inf` by default. -/
def floatMax : ℝ := 1.7976931348623157e308

/-- `np.nan_to_num(x, nan=v)` (lines 60–61): NaN entries become `v`,
`+inf` becomes the largest double, `-inf` its negation, finite entries are
unchanged. -/
def nanToNum (v : FVal) (L : List FVal) : List FVal :=
  L.map (fun x => match x with
    | FVal.nan => v
    | FVal.pinf => FVal.fin floatMax
    | FVal.ninf => FVal.fin (-floatMax)
    | FVal.fin y => FVal.fin y)

/-- The missing-value check and repair of `invert_model` (lines 52–61):
only when `L` or `w` contains at least one NaN entry (`np.isnan`; an
infinity is not NaN) are both vectors passed through
`np.nan_to_num(·, nan=np.nanmean(·))`. -/
def repairLw (L w : List FVal) : List FVal × List FVal :=
  if 0 < countNan L ∨ 0 < countNan w then
    (nanToNum (nanmean L) L, nanToNum (nanmean w) w)
  else (L, w)

/-- The replacement value named by the spec: the mean of the finite
entries of the vector. -/
def finiteMean (L : List FVal) : ℝ :=
  (L.filterMap FVal.finPart).sum / ((L.filter (fun v => v.isfinite)).length : ℝ)

lemma filter_notnan_eq_filter_finite (l : List FVal)
    (h : ∀ v ∈ l, v.isnan = true ∨ v.isfinite = true) :
    l.filter (fun v => !v.isnan) = l.filter (fun v => v.isfinite) := by
  induction l with
  | nil => rfl
  | cons v l ih =>
    have hv := h v (List.mem_cons_self v l)
    have hl := fun x hx => h x (List.mem_cons_of_mem v hx)
    cases v with
    | nan => exact ih hl
    | pinf =>
      rcases hv with hv | hv <;> simp [FVal.isnan, FVal.isfinite] at hv
    | ninf =>
      rcases hv with hv | hv <;> simp [FVal.isnan, FVal.isfinite] at hv
    | fin x => exact congrArg (List.cons (FVal.fin x)) (ih hl)

lemma foldl_add_fin (l : List FVal) (hl : ∀ v ∈ l, v.isfinite = true) :
    ∀ x : ℝ, l.foldl FVal.add (FVal.fin x)
      = FVal.fin (x + (l.filterMap FVal.finPart).sum) := by
  induction l with
  | nil => intro x; simp [List.foldl]
  | cons v l ih =>
    intro x
    have hv := hl v (List.mem_cons_self v l)
    have hrest := fun u hu => hl u (List.mem_cons_of_mem v hu)
    cases v with
    | nan => simp [FVal.isfinite] at hv
    | pinf => simp [FVal.isfinite] at hv
    | ninf => simp [FVal.isfinite] at hv
    | fin y =>
      have : (FVal.fin x).add (FVal.fin y) = FVal.fin (x + y) := rfl
      simp only [List.foldl, FVal.add, List.filterMap_cons, FVal.finPart]
      rw [ih hrest (x + y), List.sum_cons]
      ring_nf

lemma filterMap_finPart_filter (l : List FVal) :
    (l.filter (fun v => v.isfinite)).filterMap FVal.finPart
      = l.filterMap FVal.finPart := by
  induction l with
  | nil => rfl
  | cons v l ih =>
    cases v with
    | nan => simpa [List.filter_cons, List.filterMap_cons, FVal.isfinite,
        FVal.finPart] using ih
    | pinf => simpa [List.filter_cons, List.filterMap_cons, FVal.isfinite,
        FVal.finPart] using ih
    | ninf => simpa [List.filter_cons, List.filterMap_cons, FVal.isfinite,
        FVal.finPart] using ih
    | fin x => simpa [List.filter_cons, List.filterMap_cons, FVal.isfinite,
        FVal.finPart] using ih

/-- On a NaN-or-finite vector with at least one finite entry, `np.nanmean`
is the mean of the finite entries. -/
lemma nanmean_eq_finiteMean (L : List FVal)
    (hnoinf : ∀ v ∈ L, v.isnan = true ∨ v.isfinite = true)
    (hfin : ∃ v ∈ L, v.isfinite = true) :
    nanmean L = FVal.fin (finiteMean L) := by
  have hfe := filter_notnan_eq_filter_finite L hnoinf
  have hlen : (L.filter (fun v => v.isfinite)).length ≠ 0 := by
    obtain ⟨v, hv, hfv⟩ := hfin
    have : v ∈ L.filter (fun v => v.isfinite) := List.mem_filter.mpr ⟨hv, hfv⟩
    intro h0
    rw [List.length_eq_zero] at h0
    rw [h0] at this
    cases this
  unfold nanmean
  rw [hfe, if_neg hlen]
  rw [foldl_add_fin _ (fun v hv => (List.mem_filter.mp hv).2),
    filterMap_finPart_filter]
  unfold FVal.divCount finiteMean
  rw [zero_add]

/-- Counterexample to C9: the claim says every non-finite entry of `L` is
replaced by the mean of the finite entries.  For `L = [1, +inf, 3]` (a
non-finite entry but no NaN entry) the repair branch is not entered at all
— `np.isnan` does not flag an infinity — so the infinity survives
unreplaced (the claimed behavior would substitute `mean([1,3]) = 2`). -/
theorem repair_nonfinite_cex :
    (repairLw [FVal.fin 1, FVal.pinf, FVal.fin 3]
        [FVal.fin 5, FVal.fin 5, FVal.fin 5]).1
      = [FVal.fin 1, FVal.pinf, FVal.fin 3] ∧
    FVal.pinf.isfinite = false ∧
    finiteMean [FVal.fin 1, FVal.pinf, FVal.fin 3] = 2 := by
  have hL : countNan [FVal.fin 1, FVal.pinf, FVal.fin 3] = 0 := rfl
  have hw : countNan [FVal.fin 5, FVal.fin 5, FVal.fin 5] = 0 := rfl
  refine ⟨?_, rfl, ?_⟩
  · unfold repairLw
    rw [hL, hw, if_neg (by norm_num)]
  · unfold finiteMean
    simp [List.filterMap_cons, FVal.finPart, FVal.isfinite, List.filter_cons]
    norm_num

/-- C9 (amended): the repair is keyed on NaN, not on non-finiteness: when
`L` or `w` contains at least one NaN entry, every NaN entry of `L` is
replaced (before normalization) by `np.nanmean(L)` — which equals the mean
of the finite entries whenever every entry is NaN-or-finite with at least
one finite entry — and the non-NaN entries of `L` are left unchanged
(symmetrically for `w`); a warning is reported and processing continues.
In particular `L = [1, NaN, 3]` becomes `[1, 2, 3]`. -/
theorem repair_nan_spec (L w : List FVal)
    (htrig : 0 < countNan L ∨ 0 < countNan w)
    (hnoinfL : ∀ v ∈ L, v.isnan = true ∨ v.isfinite = true)
    (hfinL : ∃ v ∈ L, v.isfinite = true)
    (hnoinfw : ∀ v ∈ w, v.isnan = true ∨ v.isfinite = true)
    (hfinw : ∃ v ∈ w, v.isfinite = true) :
    nanmean L = FVal.fin (finiteMean L) ∧
    (∀ k : ℕ, L.get? k = some FVal.nan →
      (repairLw L w).1.get? k = some (FVal.fin (finiteMean L))) ∧
    (∀ (k : ℕ) (x : ℝ), L.get? k = some (FVal.fin x) →
      (repairLw L w).1.get? k = some (FVal.fin x)) ∧
    (∀ k : ℕ, w.get? k = some FVal.nan →
      (repairLw L w).2.get? k = some (FVal.fin (finiteMean w))) ∧
    (∀ (k : ℕ) (x : ℝ), w.get? k = some (FVal.fin x) →
      (repairLw L w).2.get? k = some (FVal.fin x)) := by
  have hmL := nanmean_eq_finiteMean L hnoinfL hfinL
  have hmw := nanmean_eq_finiteMean w hnoinfw hfinw
  have hrep : repairLw L w = (nanToNum (nanmean L) L, nanToNum (nanmean w) w) := by
    unfold repairLw
    rw [if_pos htrig]
  refine ⟨hmL, fun k hk => ?_, fun k x hk => ?_, fun k hk => ?_,
    fun k x hk => ?_⟩ <;>
    rw [hrep] <;>
    unfold nanToNum <;>
    rw [List.get?_map, hk]
  · rw [hmL]
    rfl
  · rfl
  · rw [hmw]
    rfl
  · rfl

/-- Witness for the amended C9 at the spec's own scenario
`L = [1, NaN, 3]` (with `w = [1, 1, 1]`): the substituted value is exactly
`mean([1, 3]) = 2`. -/
theorem repair_nan_spec_witness :
    finiteMean [FVal.fin 1, FVal.nan, FVal.fin 3] = 2 ∧
    (nanmean [FVal.fin 1, FVal.nan, FVal.fin 3]
        = FVal.fin (finiteMean [FVal.fin 1, FVal.nan, FVal.fin 3]) ∧
      (∀ k : ℕ, [FVal.fin 1, FVal.nan, FVal.fin 3].get? k
          = some FVal.nan →
        (repairLw [FVal.fin 1, FVal.nan, FVal.fin 3]
            [FVal.fin 1, FVal.fin 2, FVal.fin 4]).1.get? k
          = some (FVal.fin (finiteMean [FVal.fin 1, FVal.nan, FVal.fin 3]))) ∧
      (∀ (k : ℕ) (x : ℝ), [FVal.fin 1, FVal.nan, FVal.fin 3].get? k
          = some (FVal.fin x) →
        (repairLw [FVal.fin 1, FVal.nan, FVal.fin 3]
            [FVal.fin 1, FVal.fin 2, FVal.fin 4]).1.get? k
          = some (FVal.fin x)) ∧
      (∀ k : ℕ, [FVal.fin 1, FVal.fin 2, FVal.fin 4].get? k
          = some FVal.nan →
        (repairLw [FVal.fin 1, FVal.nan, FVal.fin 3]
            [FVal.fin 1, FVal.fin 2, FVal.fin 4]).2.get? k
          = some (FVal.fin (finiteMean [FVal.fin 1, FVal.fin 2, FVal.fin 4]))) ∧
      (∀ (k : ℕ) (x : ℝ), [FVal.fin 1, FVal.fin 2, FVal.fin 4].get? k
          = some (FVal.fin x) →
        (repairLw [FVal.fin 1, FVal.nan, FVal.fin 3]
            [FVal.fin 1, FVal.fin 2, FVal.fin 4]).2.get? k
          = some (FVal.fin x))) := by
  constructor
  · unfold finiteMean
    simp [List.filterMap_cons, FVal.finPart, FVal.isfinite, List.filter_cons]
    norm_num
  · refine repair_nan_spec _ _ (Or.inl (by norm_num [countNan, List.filter_cons,
      FVal.isnan])) ?_ ?_ ?_ ?_
    · intro v hv
      simp only [List.mem_cons, List.not_mem_nil, or_false] at hv
      rcases hv with rfl | rfl | rfl
      · exact Or.inr rfl
      · exact Or.inl rfl
      · exact Or.inr rfl
    · exact ⟨FVal.fin 1, by simp, rfl⟩
    · intro v hv
      simp only [List.mem_cons, List.not_mem_nil, or_false] at hv
      rcases hv with rfl | rfl | rfl
      · exact Or.inr rfl
      · exact Or.inr rfl
      · exact Or.inr rfl
    · exact ⟨FVal.fin 1, by simp, rfl⟩

/-- Witness for C10: two years, the first of which raises immediately. -/
theorem exception_year_fallback_witness :
    runYearWith (n := 2) ((fun _ _ => none) 1975)
        = ⟨fun _ => 1, fun _ => 1, 0, 1⟩ ∧
    (1975 ∈ [1975, 1980] →
      ((1975 : ℕ), (⟨fun _ => 1, fun _ => 1, 0, 1⟩ : YearResult 2))
        ∈ invert_model_years [1975, 1980] (fun _ _ => none)) ∧
    (invert_model_years (n := 2) [1975, 1980] (fun _ _ => none)).map Prod.fst
        = [1975, 1980] :=
  exception_year_fallback [1975, 1980] (fun _ _ => none) 1975 rfl

end

end QSM
